import Mathlib

/-!
# BadAppleStein: `match_batch` (src/match.c)

A shallow embedding of the C function

    void match_batch(const uint64_t* lib, const uint64_t* targets,
                     int n_pages, int num_targets, int* results)

and theorems about it.

Modelling conventions
* An array passed by pointer is a `List`; a read or write outside the list is
  an error (`none`), so every function of the embedding returns an `Option`.
* `uint64_t` words and the `uint32_t` accumulator are `Nat`; the accumulator is
  reduced modulo `2 ^ 32` after every addition.
* `int` is a 32-bit signed integer, modelled as `Int`; the products `i * 64`
  and `t * 64` go through `mulInt32`, which is the exact product wherever C
  defines it (`mulIntDefined`), that is for indices below `2 ^ 25`.
* The three `for` loops are counted loops: each is a structural recursion on
  the number of iterations that remain, so the embedding is total.
* `match_batch` is the sequential execution of the `omp parallel for` over targets;
  `runSchedule` runs the same iterations in any order, each by any worker.
-/

set_option autoImplicit false

namespace MatchBatch

/-! ## Machine arithmetic -/

/-- Reinterpretation of an integer as a 32-bit two's-complement `int`. -/
def wrapInt32 (x : Int) : Int := (x + 2147483648) % 4294967296 - 2147483648

/-- The `int` product `x * y` as a 32-bit two's-complement machine computes it. C defines
the product of two `int` values only when it is representable (`mulIntDefined`); there the
two agree, and outside that range this is one of the results an implementation may show. -/
def mulInt32 (x y : Int) : Int := wrapInt32 (x * y)

/-- The number of set bits among the lowest `n` bits of `x`. -/
def popcountBits : Nat → Nat → Nat
  | 0, _ => 0
  | n + 1, x => x % 2 + popcountBits n (x / 2)

/-- The builtin `__builtin_popcountll`: the number of set bits of a 64-bit word. -/
def popcountll (x : Nat) : Nat := popcountBits 64 x

/-! ## Memory -/

/-- Read of `p[off]` where `p` points at the first word of `mem`. -/
def readWord (mem : List Nat) (off : Int) : Option Nat :=
  if 0 ≤ off then mem[off.toNat]? else none

/-- Write of `results[t] = v`. -/
def writeResult (results : List Int) (t : Int) (v : Int) : Option (List Int) :=
  if 0 ≤ t ∧ t.toNat < results.length then some (results.set t.toNat v) else none

/-! ## The three loops of `match_batch` -/

/-- The inner loop `for (j = 0; j < 64; j++) dist += popcountll(current_sig[j] ^ target[j])`
with `current_sig = &lib[sigOff]` and `target = &targets[tgtOff]`: `fuel` iterations remain,
the loop counter is `j` and the accumulator holds `dist`. -/
def distLoop (lib targets : List Nat) (sigOff tgtOff : Int) : Nat → Int → Nat → Option Nat
  | 0, _, dist => some dist
  | fuel + 1, j, dist =>
    match readWord lib (sigOff + j), readWord targets (tgtOff + j) with
    | some c, some x =>
      distLoop lib targets sigOff tgtOff fuel (j + 1) ((dist + popcountll (c ^^^ x)) % 4294967296)
    | _, _ => none

/-- The body `uint32_t dist = 0; ... for (j ...) ...` for library entry `i` and the target at
`tgtOff`: the value of `dist` after the inner loop. -/
def entryDist (lib targets : List Nat) (tgtOff : Int) (i : Int) : Option Nat :=
  distLoop lib targets (mulInt32 i 64) tgtOff 64 0 0

/-- The library scan `for (i = 0; i < n_pages; i++)`: `fuel` iterations remain, the loop counter
is `i`, and `min_dist`, `best_idx` are the running minimum and its index. The result is the
value of `best_idx` when the loop is left. -/
def scanLoop (lib targets : List Nat) (tgtOff : Int) : Nat → Int → Nat → Int → Option Int
  | 0, _, _, best_idx => some best_idx
  | fuel + 1, i, min_dist, best_idx =>
    match entryDist lib targets tgtOff i with
    | none => none
    | some dist =>
      if dist < min_dist then
        if dist = 0 then some i
        else scanLoop lib targets tgtOff fuel (i + 1) dist i
      else scanLoop lib targets tgtOff fuel (i + 1) min_dist best_idx

/-- The body of the loop over targets up to the assignment to `results[t]`: the best index
for target `t`. -/
def bestIndex (lib targets : List Nat) (n_pages : Int) (t : Int) : Option Int :=
  scanLoop lib targets (mulInt32 t 64) n_pages.toNat 0 4294967295 0

/-- The loop `for (t = 0; t < num_targets; t++)`: `fuel` iterations remain and the loop counter
is `t`. -/
def targetLoop (lib targets : List Nat) (n_pages : Int) : Nat → Int → List Int → Option (List Int)
  | 0, _, results => some results
  | fuel + 1, t, results =>
    match bestIndex lib targets n_pages t with
    | none => none
    | some best_idx =>
      match writeResult results t best_idx with
      | none => none
      | some results1 => targetLoop lib targets n_pages fuel (t + 1) results1

/-- The function `match_batch`: the contents of `results` when the call returns. -/
def match_batch (lib targets : List Nat) (n_pages num_targets : Int) (results : List Int) :
    Option (List Int) :=
  targetLoop lib targets n_pages num_targets.toNat 0 results

/-- The library scan with the statement `if (dist == 0) break;` removed. -/
def scanLoopNoBreak (lib targets : List Nat) (tgtOff : Int) : Nat → Int → Nat → Int → Option Int
  | 0, _, _, best_idx => some best_idx
  | fuel + 1, i, min_dist, best_idx =>
    match entryDist lib targets tgtOff i with
    | none => none
    | some dist =>
      if dist < min_dist then scanLoopNoBreak lib targets tgtOff fuel (i + 1) dist i
      else scanLoopNoBreak lib targets tgtOff fuel (i + 1) min_dist best_idx

/-- The best index for target `t` computed without the early exit. -/
def bestIndexNoBreak (lib targets : List Nat) (n_pages : Int) (t : Int) : Option Int :=
  scanLoopNoBreak lib targets (mulInt32 t 64) n_pages.toNat 0 4294967295 0

/-! ## Signatures and their distance -/

/-- Signature number `i` of a flat array of words: the words `64 * i, ..., 64 * i + 63`. -/
def signature (mem : List Nat) (i : Nat) : List Nat := (mem.drop (64 * i)).take 64

/-- The distance of two signatures as the inner loop computes it: the loop is entered with
`dist = 0` and `j = 0`, and both pointers are at the first word of their signature. -/
def distance (a b : List Nat) : Option Nat := distLoop a b 0 0 64 0 0

/-- The sum of the popcounts of the XOR of the 64 words of library entry `i` and of
target `t`, read from the flat arrays. -/
def closedDist (lib targets : List Nat) (t i : Nat) : Nat :=
  ∑ j in Finset.range 64, popcountll (lib.getD (64 * i + j) 0 ^^^ targets.getD (64 * t + j) 0)

/-! ## Specification-side notions -/

/-- Bit `p` of a signature stored as a list of 64-bit words: bit `p % 64` of word `p / 64`. -/
def sigBit (a : List Nat) (p : Nat) : Bool := (a.getD (p / 64) 0).testBit (p % 64)

/-- The Hamming distance of two 4096-bit signatures: the number of bit positions
`p < 4096` at which they differ. -/
def hammingDistance (a b : List Nat) : Nat :=
  ((Finset.range 4096).filter (fun p => sigBit a p ≠ sigBit b p)).card

/-- The number of set bits of a 4096-bit signature: the number of bit positions `p < 4096`
at which it holds a one. -/
def sigPopcount (x : List Nat) : Nat :=
  ((Finset.range 4096).filter (fun p => sigBit x p = true)).card

/-! ## Concrete inputs -/

/-- The all-zero signature. -/
def sigZero : List Nat := List.replicate 64 0

/-- The all-one signature. -/
def sigOnes : List Nat := List.replicate 64 18446744073709551615

/-- A library of two entries: the all-zero signature and the all-one signature. -/
def exLib : List Nat := sigZero ++ sigOnes

/-- A batch of three targets. -/
def exTargets : List Nat := sigOnes ++ sigZero ++ sigOnes

/-- A library of two equal entries, both the all-one signature. -/
def exTies : List Nat := sigOnes ++ sigOnes

/-- A batch of two targets, both the all-zero signature. -/
def exTargetsB : List Nat := sigZero ++ sigZero

/-- The all-zero signature with its lowest bit flipped. -/
def sigFlip : List Nat := 1 :: List.replicate 63 0

/-- A batch of two targets: the all-zero signature and the one with one bit flipped. -/
def exTargetsC : List Nat := sigZero ++ sigFlip

/-- A library of three entries: the all-one signature, then the all-zero signature twice. -/
def exTies3 : List Nat := sigOnes ++ sigZero ++ sigZero

/-! ## The parallel loop -/

/-- The body of the loop over targets for the iteration `t`: the scan of the library and the
assignment `results[t] = best_idx`. Every variable of the body is declared inside it, so the
body depends on `t` only and not on the worker that runs it. -/
def targetIter (lib targets : List Nat) (n_pages : Int) (t : Int) (results : List Int) :
    Option (List Int) :=
  match bestIndex lib targets n_pages t with
  | none => none
  | some best_idx => writeResult results t best_idx

/-- An execution of `omp parallel for schedule(dynamic)`: the schedule lists the pairs of a
worker and the iteration it runs, in the order in which the iterations write their result. -/
def runSchedule (lib targets : List Nat) (n_pages : Int) :
    List (Nat × Nat) → List Int → Option (List Int)
  | [], results => some results
  | (_, t) :: rest, results =>
    match targetIter lib targets n_pages (t : Int) results with
    | none => none
    | some results1 => runSchedule lib targets n_pages rest results1

/-! ## Auxiliary lemmas -/

open Finset

theorem exLib_length : exLib.length = 128 := by
  simp only [exLib, sigZero, sigOnes, List.length_append, List.length_replicate]

theorem exTies_length : exTies.length = 128 := by
  simp only [exTies, sigOnes, List.length_append, List.length_replicate]

theorem exTargets_length : exTargets.length = 192 := by
  simp only [exTargets, sigZero, sigOnes, List.length_append, List.length_replicate]

theorem exTargetsC_length : exTargetsC.length = 128 := by
  simp only [exTargetsC, sigZero, sigFlip, List.length_append, List.length_replicate,
    List.length_cons]

theorem exTies3_length : exTies3.length = 192 := by
  simp only [exTies3, sigZero, sigOnes, List.length_append, List.length_replicate]

theorem mulInt32_exact (x : Int) (h0 : 0 ≤ x) (h1 : x < 33554432) : mulInt32 x 64 = x * 64 := by
  unfold mulInt32 wrapInt32
  omega

theorem popcountBits_eq_sum (n x : Nat) :
    popcountBits n x = ∑ k in range n, (x.testBit k).toNat := by
  induction n generalizing x with
  | zero => simp [popcountBits]
  | succ n ih =>
    rw [popcountBits, ih, Finset.sum_range_succ', Nat.add_comm]
    congr 1
    · apply Finset.sum_congr rfl
      intro k _
      rw [Nat.testBit_succ]
    · rw [Nat.testBit_zero]
      rcases Nat.mod_two_eq_zero_or_one x with h | h <;> simp [h]

theorem popcountll_le (x : Nat) : popcountll x ≤ 64 := by
  unfold popcountll
  rw [popcountBits_eq_sum]
  calc ∑ k in range 64, (x.testBit k).toNat ≤ ∑ _k in range 64, 1 := by
        apply Finset.sum_le_sum
        intro k _
        cases x.testBit k <;> simp
    _ = 64 := by simp

theorem readWord_natCast (mem : List Nat) (n : Nat) (h : n < mem.length) :
    readWord mem (n : Int) = some (mem.getD n 0) := by
  unfold readWord
  simp [h, List.getD, List.getElem?_eq_getElem]

theorem distLoop_eq (lib targets : List Nat) (sOff tOff : Nat) (fuel j acc : Nat)
    (hl : sOff + j + fuel ≤ lib.length) (ht : tOff + j + fuel ≤ targets.length)
    (hacc : acc + 64 * fuel < 4294967296) :
    distLoop lib targets sOff tOff fuel j acc
      = some (acc + ∑ k in range fuel,
          popcountll (lib.getD (sOff + j + k) 0 ^^^ targets.getD (tOff + j + k) 0)) := by
  induction fuel generalizing j acc with
  | zero => simp [distLoop]
  | succ fuel ih =>
    have h1 : ((sOff : Int) + (j : Int)) = ((sOff + j : Nat) : Int) := by push_cast; rfl
    have h2 : ((tOff : Int) + (j : Int)) = ((tOff + j : Nat) : Int) := by push_cast; rfl
    have hp := popcountll_le (lib.getD (sOff + j) 0 ^^^ targets.getD (tOff + j) 0)
    rw [distLoop, h1, h2, readWord_natCast lib (sOff + j) (by omega),
      readWord_natCast targets (tOff + j) (by omega)]
    simp only
    have h3 : ((j : Int) + 1) = ((j + 1 : Nat) : Int) := by push_cast; rfl
    rw [h3, Nat.mod_eq_of_lt (by omega), ih (j + 1) _ (by omega) (by omega) (by omega),
      Finset.sum_range_succ']
    have e1 : ∀ k, sOff + (j + 1) + k = sOff + j + (k + 1) := by intro k; omega
    have e2 : ∀ k, tOff + (j + 1) + k = tOff + j + (k + 1) := by intro k; omega
    simp only [e1, e2, Nat.add_zero]
    apply congrArg some
    rw [Nat.add_assoc, Nat.add_comm (popcountll _)]

theorem popcountll_xor (c x : Nat) :
    popcountll (c ^^^ x) = ∑ k in range 64, if c.testBit k ≠ x.testBit k then 1 else 0 := by
  unfold popcountll
  rw [popcountBits_eq_sum]
  apply Finset.sum_congr rfl
  intro k _
  rw [Nat.testBit_xor]
  cases c.testBit k <;> cases x.testBit k <;> simp

theorem sum_range_blocks (f : Nat → Nat) (n : Nat) :
    ∑ p in range (64 * n), f p = ∑ j in range n, ∑ k in range 64, f (64 * j + k) := by
  induction n with
  | zero => simp
  | succ n ih =>
    rw [Nat.mul_succ, Finset.sum_range_add, ih,
      Finset.sum_range_succ (fun j => ∑ k in range 64, f (64 * j + k)) n]

theorem hammingDistance_eq_sum (a b : List Nat) :
    hammingDistance a b = ∑ j in range 64, popcountll (a.getD j 0 ^^^ b.getD j 0) := by
  unfold hammingDistance
  rw [Finset.card_filter, show (4096 : Nat) = 64 * 64 from rfl, sum_range_blocks]
  apply Finset.sum_congr rfl
  intro j _
  rw [popcountll_xor]
  apply Finset.sum_congr rfl
  intro k hk
  have hk64 : k < 64 := Finset.mem_range.mp hk
  have e1 : (64 * j + k) / 64 = j := by omega
  have e2 : (64 * j + k) % 64 = k := by omega
  simp only [sigBit, e1, e2]

theorem popcountll_xor_triangle (a b c : Nat) :
    popcountll (a ^^^ c) ≤ popcountll (a ^^^ b) + popcountll (b ^^^ c) := by
  rw [popcountll_xor, popcountll_xor, popcountll_xor, ← Finset.sum_add_distrib]
  apply Finset.sum_le_sum
  intro k _
  cases a.testBit k <;> cases b.testBit k <;> cases c.testBit k <;> simp

theorem testBit_eq_false_of_word (x k : Nat) (hx : x < 18446744073709551616) (hk : 64 ≤ k) :
    x.testBit k = false := by
  apply Nat.testBit_eq_false_of_lt
  calc x < 2 ^ 64 := hx
    _ ≤ 2 ^ k := Nat.pow_le_pow_right (by decide) hk

theorem popcountll_xor_eq_zero (a b : Nat) (ha : a < 18446744073709551616)
    (hb : b < 18446744073709551616) : popcountll (a ^^^ b) = 0 ↔ a = b := by
  constructor
  · intro h
    rw [popcountll_xor, Finset.sum_eq_zero_iff] at h
    apply Nat.eq_of_testBit_eq
    intro k
    by_cases hk : k < 64
    · have := h k (Finset.mem_range.mpr hk)
      by_contra hne
      simp [hne] at this
    · rw [testBit_eq_false_of_word a k ha (by omega), testBit_eq_false_of_word b k hb (by omega)]
  · intro h
    subst h
    rw [popcountll_xor]
    simp

theorem distLoop_sig (a b : List Nat) (ha : a.length = 64) (hb : b.length = 64) :
    distLoop a b 0 0 64 0 0 = some (∑ j in range 64, popcountll (a.getD j 0 ^^^ b.getD j 0)) := by
  have h := distLoop_eq a b 0 0 64 0 0 (by omega) (by omega) (by omega)
  simp only [Nat.cast_zero, Nat.zero_add] at h
  exact h

theorem entryDist_eq (lib targets : List Nat) (tOff i : Nat) (hi : i < 33554432)
    (hl : 64 * i + 64 ≤ lib.length) (ht : tOff + 64 ≤ targets.length) :
    entryDist lib targets (tOff : Int) (i : Int)
      = some (∑ j in range 64,
          popcountll (lib.getD (64 * i + j) 0 ^^^ targets.getD (tOff + j) 0)) := by
  unfold entryDist
  rw [mulInt32_exact (i : Int) (by omega) (by omega)]
  have e : ((i : Int) * 64) = ((64 * i : Nat) : Int) := by push_cast; ring
  have h := distLoop_eq lib targets (64 * i) tOff 64 0 0 (by omega) (by omega) (by omega)
  simp only [Nat.cast_zero, Nat.zero_add, Nat.add_zero] at h
  rw [e, h]

theorem signature_length (mem : List Nat) (i : Nat) (h : 64 * i + 64 ≤ mem.length) :
    (signature mem i).length = 64 := by
  unfold signature
  rw [List.length_take, List.length_drop]
  omega

theorem signature_getD (mem : List Nat) (i j : Nat) (hj : j < 64) :
    (signature mem i).getD j 0 = mem.getD (64 * i + j) 0 := by
  unfold signature
  simp only [List.getD_eq_getElem?_getD, List.getElem?_take, hj, if_true, List.getElem?_drop]

theorem distance_signature (lib targets : List Nat) (i t : Nat)
    (hl : 64 * i + 64 ≤ lib.length) (ht : 64 * t + 64 ≤ targets.length) :
    distance (signature lib i) (signature targets t)
      = some (∑ j in range 64,
          popcountll (lib.getD (64 * i + j) 0 ^^^ targets.getD (64 * t + j) 0)) := by
  unfold distance
  rw [distLoop_sig _ _ (signature_length lib i hl) (signature_length targets t ht)]
  apply congrArg some
  apply Finset.sum_congr rfl
  intro j hj
  rw [signature_getD lib i j (Finset.mem_range.mp hj),
    signature_getD targets t j (Finset.mem_range.mp hj)]

theorem scanLoop_spec (lib targets : List Nat) (tgtOff : Int) (d : Nat → Nat) (fuel : Nat) :
    ∀ (i min_dist : Nat) (best_idx : Int),
      (∀ k, i ≤ k → k < i + fuel → entryDist lib targets tgtOff (k : Int) = some (d k)) →
      ∃ r : Int, scanLoop lib targets tgtOff fuel (i : Int) min_dist best_idx = some r ∧
        ((r = best_idx ∧ ∀ k, i ≤ k → k < i + fuel → min_dist ≤ d k) ∨
         (∃ rn : Nat, r = (rn : Int) ∧ i ≤ rn ∧ rn < i + fuel ∧ d rn < min_dist ∧
            (∀ k, i ≤ k → k < i + fuel → d rn ≤ d k) ∧ (∀ k, i ≤ k → k < rn → d rn < d k))) := by
  induction fuel with
  | zero =>
    intro i min_dist best_idx _
    refine ⟨best_idx, by simp [scanLoop], Or.inl ⟨rfl, ?_⟩⟩
    intro k h1 h2
    omega
  | succ fuel ih =>
    intro i min_dist best_idx hd
    have hi := hd i (Nat.le_refl i) (by omega)
    have hd1 : ∀ k, i + 1 ≤ k → k < (i + 1) + fuel →
        entryDist lib targets tgtOff (k : Int) = some (d k) := by
      intro k h1 h2
      exact hd k (by omega) (by omega)
    have hcast : ((i : Int) + 1) = ((i + 1 : Nat) : Int) := by push_cast; rfl
    rw [scanLoop, hi]
    simp only
    by_cases hlt : d i < min_dist
    · rw [if_pos hlt]
      by_cases hz : d i = 0
      · rw [if_pos hz]
        refine ⟨(i : Int), rfl, Or.inr ⟨i, rfl, Nat.le_refl i, by omega, hlt, ?_, ?_⟩⟩
        · intro k _ _
          omega
        · intro k h1 h2
          omega
      · rw [if_neg hz, hcast]
        obtain ⟨r, hr, hcase⟩ := ih (i + 1) (d i) (i : Int) hd1
        refine ⟨r, hr, Or.inr ?_⟩
        rcases hcase with ⟨hrb, hall⟩ | ⟨rn, hrn, h1, h2, h3, h4, h5⟩
        · refine ⟨i, hrb, Nat.le_refl i, by omega, hlt, ?_, ?_⟩
          · intro k hk1 hk2
            rcases Nat.eq_or_lt_of_le hk1 with h | h
            · subst h; exact Nat.le_refl _
            · exact hall k (by omega) (by omega)
          · intro k hk1 hk2
            omega
        · refine ⟨rn, hrn, by omega, by omega, by omega, ?_, ?_⟩
          · intro k hk1 hk2
            rcases Nat.eq_or_lt_of_le hk1 with h | h
            · subst h; omega
            · exact h4 k (by omega) (by omega)
          · intro k hk1 hk2
            rcases Nat.eq_or_lt_of_le hk1 with h | h
            · subst h; exact h3
            · exact h5 k (by omega) hk2
    · rw [if_neg hlt, hcast]
      obtain ⟨r, hr, hcase⟩ := ih (i + 1) min_dist best_idx hd1
      refine ⟨r, hr, ?_⟩
      rcases hcase with ⟨hrb, hall⟩ | ⟨rn, hrn, h1, h2, h3, h4, h5⟩
      · refine Or.inl ⟨hrb, ?_⟩
        intro k hk1 hk2
        rcases Nat.eq_or_lt_of_le hk1 with h | h
        · subst h; omega
        · exact hall k (by omega) (by omega)
      · refine Or.inr ⟨rn, hrn, by omega, by omega, h3, ?_, ?_⟩
        · intro k hk1 hk2
          rcases Nat.eq_or_lt_of_le hk1 with h | h
          · subst h; omega
          · exact h4 k (by omega) (by omega)
        · intro k hk1 hk2
          rcases Nat.eq_or_lt_of_le hk1 with h | h
          · subst h; omega
          · exact h5 k (by omega) hk2

theorem scanLoopNoBreak_min_zero (lib targets : List Nat) (tgtOff : Int) (d : Nat → Nat)
    (fuel : Nat) :
    ∀ (i : Nat) (best_idx : Int),
      (∀ k, i ≤ k → k < i + fuel → entryDist lib targets tgtOff (k : Int) = some (d k)) →
      scanLoopNoBreak lib targets tgtOff fuel (i : Int) 0 best_idx = some best_idx := by
  induction fuel with
  | zero => intro i best_idx _; simp [scanLoopNoBreak]
  | succ fuel ih =>
    intro i best_idx hd
    have hcast : ((i : Int) + 1) = ((i + 1 : Nat) : Int) := by push_cast; rfl
    rw [scanLoopNoBreak, hd i (Nat.le_refl i) (by omega)]
    simp only [Nat.not_lt_zero, if_false]
    rw [hcast]
    exact ih (i + 1) best_idx (fun k h1 h2 => hd k (by omega) (by omega))

theorem scanLoopNoBreak_eq (lib targets : List Nat) (tgtOff : Int) (d : Nat → Nat) (fuel : Nat) :
    ∀ (i min_dist : Nat) (best_idx : Int),
      (∀ k, i ≤ k → k < i + fuel → entryDist lib targets tgtOff (k : Int) = some (d k)) →
      scanLoopNoBreak lib targets tgtOff fuel (i : Int) min_dist best_idx
        = scanLoop lib targets tgtOff fuel (i : Int) min_dist best_idx := by
  induction fuel with
  | zero => intro i min_dist best_idx _; simp [scanLoopNoBreak, scanLoop]
  | succ fuel ih =>
    intro i min_dist best_idx hd
    have hcast : ((i : Int) + 1) = ((i + 1 : Nat) : Int) := by push_cast; rfl
    have hd1 : ∀ k, i + 1 ≤ k → k < (i + 1) + fuel →
        entryDist lib targets tgtOff (k : Int) = some (d k) :=
      fun k h1 h2 => hd k (by omega) (by omega)
    rw [scanLoopNoBreak, scanLoop, hd i (Nat.le_refl i) (by omega)]
    simp only
    by_cases hlt : d i < min_dist
    · rw [if_pos hlt, if_pos hlt]
      by_cases hz : d i = 0
      · rw [if_pos hz, hz, hcast]
        exact scanLoopNoBreak_min_zero lib targets tgtOff d fuel (i + 1) (i : Int) hd1
      · rw [if_neg hz, hcast]
        exact ih (i + 1) (d i) (i : Int) hd1
    · rw [if_neg hlt, if_neg hlt, hcast]
      exact ih (i + 1) min_dist best_idx hd1

theorem writeResult_natCast (results : List Int) (t : Nat) (v : Int) (h : t < results.length) :
    writeResult results (t : Int) v = some (results.set t v) := by
  unfold writeResult
  simp [h]

theorem targetLoop_spec (lib targets : List Nat) (n_pages : Int) (f : Nat → Int) (fuel : Nat) :
    ∀ (t : Nat) (results : List Int),
      (∀ s, t ≤ s → s < t + fuel → bestIndex lib targets n_pages (s : Int) = some (f s)) →
      t + fuel ≤ results.length →
      ∃ out, targetLoop lib targets n_pages fuel (t : Int) results = some out ∧
        out.length = results.length ∧
        (∀ s, t ≤ s → s < t + fuel → out[s]? = some (f s)) ∧
        (∀ s, s < t ∨ t + fuel ≤ s → out[s]? = results[s]?) := by
  induction fuel with
  | zero =>
    intro t results _ _
    refine ⟨results, by simp [targetLoop], rfl, ?_, fun s _ => rfl⟩
    intro s h1 h2
    omega
  | succ fuel ih =>
    intro t results hf hlen
    have hcast : ((t : Int) + 1) = ((t + 1 : Nat) : Int) := by push_cast; rfl
    rw [targetLoop, hf t (Nat.le_refl t) (by omega)]
    simp only
    rw [writeResult_natCast results t (f t) (by omega)]
    simp only
    rw [hcast]
    obtain ⟨out, hout, hl, h1, h2⟩ := ih (t + 1) (results.set t (f t))
      (fun s hs1 hs2 => hf s (by omega) (by omega)) (by rw [List.length_set]; omega)
    refine ⟨out, hout, by rw [hl, List.length_set], ?_, ?_⟩
    · intro s hs1 hs2
      rcases Nat.eq_or_lt_of_le hs1 with h | h
      · subst h
        rw [h2 t (Or.inl (by omega)), List.getElem?_set_self (by omega)]
      · exact h1 s (by omega) (by omega)
    · intro s hs
      rw [h2 s (by omega), List.getElem?_set_ne (by omega)]

theorem closedDist_le (lib targets : List Nat) (t i : Nat) : closedDist lib targets t i ≤ 4096 := by
  unfold closedDist
  calc _ ≤ ∑ _j in range 64, 64 := Finset.sum_le_sum (fun j _ => popcountll_le _)
    _ = 4096 := by simp

theorem entryDist_closed (lib targets : List Nat) (n_pages : Int) (t : Nat)
    (hn : n_pages ≤ 33554432) (hlib : n_pages * 64 ≤ (lib.length : Int))
    (ht : t < 33554432) (htg : 64 * t + 64 ≤ targets.length) :
    ∀ k : Nat, 0 ≤ k → k < 0 + n_pages.toNat →
      entryDist lib targets (mulInt32 (t : Int) 64) (k : Int)
        = some (closedDist lib targets t k) := by
  intro k _ hk
  rw [mulInt32_exact (t : Int) (by omega) (by omega)]
  have e : ((t : Int) * 64) = ((64 * t : Nat) : Int) := by push_cast; ring
  rw [e]
  exact entryDist_eq lib targets (64 * t) k (by omega) (by omega) htg

theorem distance_closed (lib targets : List Nat) (n_pages : Int) (t k : Nat)
    (hlib : n_pages * 64 ≤ (lib.length : Int)) (htg : 64 * t + 64 ≤ targets.length)
    (hk : (k : Int) < n_pages) :
    distance (signature lib k) (signature targets t) = some (closedDist lib targets t k) :=
  distance_signature lib targets k t (by omega) htg

theorem bestIndex_spec (lib targets : List Nat) (n_pages : Int) (t : Nat)
    (hn : n_pages ≤ 33554432) (hlib : n_pages * 64 ≤ (lib.length : Int))
    (ht : t < 33554432) (htg : 64 * t + 64 ≤ targets.length) :
    ∃ r : Int, bestIndex lib targets n_pages (t : Int) = some r ∧
      (n_pages ≤ 0 → r = 0) ∧
      (0 < n_pages → ∃ rn : Nat, r = (rn : Int) ∧ (rn : Int) < n_pages ∧
        (∀ k : Nat, (k : Int) < n_pages →
          closedDist lib targets t rn ≤ closedDist lib targets t k) ∧
        (∀ k : Nat, k < rn → closedDist lib targets t rn < closedDist lib targets t k)) := by
  have hd := entryDist_closed lib targets n_pages t hn hlib ht htg
  obtain ⟨r, hr, hcase⟩ := scanLoop_spec lib targets (mulInt32 (t : Int) 64)
    (closedDist lib targets t) n_pages.toNat 0 4294967295 0 hd
  simp only [Nat.cast_zero] at hr
  refine ⟨r, hr, ?_, ?_⟩
  · intro h0
    have hz : n_pages.toNat = 0 := by omega
    rw [hz] at hr
    simp only [scanLoop, Option.some.injEq] at hr
    exact hr.symm
  · intro hpos
    rcases hcase with ⟨_, hall⟩ | ⟨rn, hrn, _, h2, _, h4, h5⟩
    · have h := hall 0 (Nat.le_refl 0) (by omega)
      have := closedDist_le lib targets t 0
      omega
    · refine ⟨rn, hrn, by omega, ?_, ?_⟩
      · intro k hk
        exact h4 k (Nat.zero_le k) (by omega)
      · intro k hk
        exact h5 k (Nat.zero_le k) hk

theorem bestIndexNoBreak_eq (lib targets : List Nat) (n_pages : Int) (t : Nat)
    (hn : n_pages ≤ 33554432) (hlib : n_pages * 64 ≤ (lib.length : Int))
    (ht : t < 33554432) (htg : 64 * t + 64 ≤ targets.length) :
    bestIndexNoBreak lib targets n_pages (t : Int) = bestIndex lib targets n_pages (t : Int) := by
  have h := scanLoopNoBreak_eq lib targets (mulInt32 (t : Int) 64)
    (closedDist lib targets t) n_pages.toNat 0 4294967295 0
    (entryDist_closed lib targets n_pages t hn hlib ht htg)
  simp only [Nat.cast_zero] at h
  exact h

theorem match_batch_spec (lib targets : List Nat) (n_pages num_targets : Int)
    (results : List Int)
    (hn : n_pages ≤ 33554432) (hm : num_targets ≤ 33554432)
    (hlib : n_pages * 64 ≤ (lib.length : Int))
    (htg : num_targets * 64 ≤ (targets.length : Int))
    (hres : num_targets ≤ (results.length : Int)) :
    ∃ out, match_batch lib targets n_pages num_targets results = some out ∧
      out.length = results.length ∧
      (∀ t : Nat, (t : Int) < num_targets → out[t]? = bestIndex lib targets n_pages (t : Int)) ∧
      (∀ s : Nat, num_targets ≤ (s : Int) → out[s]? = results[s]?) := by
  have hf : ∀ s : Nat, 0 ≤ s → s < 0 + num_targets.toNat →
      bestIndex lib targets n_pages (s : Int)
        = some ((bestIndex lib targets n_pages (s : Int)).getD 0) := by
    intro s _ hs
    obtain ⟨r, hr, _⟩ := bestIndex_spec lib targets n_pages s hn hlib (by omega) (by omega)
    rw [hr]
    rfl
  obtain ⟨out, hout, hl, h1, h2⟩ := targetLoop_spec lib targets n_pages
    (fun s => (bestIndex lib targets n_pages (s : Int)).getD 0) num_targets.toNat 0 results
    hf (by omega)
  simp only [Nat.cast_zero] at hout
  refine ⟨out, hout, hl, ?_, ?_⟩
  · intro t ht
    rw [h1 t (Nat.zero_le t) (by omega)]
    exact (hf t (Nat.zero_le t) (by omega)).symm
  · intro s hs
    exact h2 s (Or.inr (by omega))

/-! ## Evaluation on a concrete input -/

set_option maxRecDepth 1000000 in
/-- The two-entry library against the three targets: all-one, all-zero, all-one. -/
theorem match_batch_example : match_batch exLib exTargets 2 3 [7, 7, 7] = some [1, 0, 1] := by
  decide

/-! ## The distance kernel and the Hamming distance -/

/-- Claim C1. For two signatures of 64 words each, the distance the inner loop of
match_batch computes (the 32-bit sum of the popcounts of the XOR of corresponding words)
is the Hamming distance: the number of bit positions below 4096 at which they differ. -/
theorem distance_eq_hammingDistance (a b : List Nat) (ha : a.length = 64)
    (hb : b.length = 64) : distance a b = some (hammingDistance a b) := by
  unfold distance
  rw [distLoop_sig a b ha hb, hammingDistance_eq_sum]

/-- Witness of C1 at the all-zero and the all-one signature. -/
theorem distance_eq_hammingDistance_witness :
    (sigZero.length = 64 ∧ sigOnes.length = 64)
      ∧ distance sigZero sigOnes = some (hammingDistance sigZero sigOnes) :=
  ⟨⟨by decide, by decide⟩, distance_eq_hammingDistance sigZero sigOnes (by decide) (by decide)⟩

/-! ## The scan: nearest neighbour, tie-break, early exit, range -/

/-- Claim C2. For a library of n_pages > 0 entries and a target t < num_targets, the index
that match_batch writes to results[t] is a nearest neighbour: the distance of that library
entry to the target is at most the distance of every library entry i < n_pages. -/
theorem match_batch_nearest_neighbour (lib targets : List Nat) (n_pages num_targets : Int)
    (results : List Int) (t : Nat)
    (hpos : 0 < n_pages) (hn : n_pages ≤ 33554432) (hm : num_targets ≤ 33554432)
    (hlib : n_pages * 64 ≤ (lib.length : Int))
    (htg : num_targets * 64 ≤ (targets.length : Int))
    (hres : num_targets ≤ (results.length : Int))
    (ht : (t : Int) < num_targets) :
    ∃ (out : List Int) (r dr : Nat),
      match_batch lib targets n_pages num_targets results = some out ∧
      out[t]? = some (r : Int) ∧
      distance (signature lib r) (signature targets t) = some dr ∧
      ∀ i : Nat, (i : Int) < n_pages →
        ∃ di, distance (signature lib i) (signature targets t) = some di ∧ dr ≤ di := by
  obtain ⟨out, hout, _, h1, _⟩ :=
    match_batch_spec lib targets n_pages num_targets results hn hm hlib htg hres
  obtain ⟨r, hr, _, hbest⟩ :=
    bestIndex_spec lib targets n_pages t hn hlib (by omega) (by omega)
  obtain ⟨rn, hrn, hlt, hmin, _⟩ := hbest hpos
  refine ⟨out, rn, closedDist lib targets t rn, hout, ?_, ?_, ?_⟩
  · rw [h1 t ht, hr, hrn]
  · exact distance_closed lib targets n_pages t rn hlib (by omega) hlt
  · intro i hi
    exact ⟨_, distance_closed lib targets n_pages t i hlib (by omega) hi, hmin i hi⟩

/-- Witness of C2: the two-entry library and a batch of three targets, target 1. -/
theorem match_batch_nearest_neighbour_witness :
    ∃ (out : List Int) (r dr : Nat),
      match_batch exLib exTargets 2 3 [7, 7, 7] = some out ∧
      out[1]? = some (r : Int) ∧
      distance (signature exLib r) (signature exTargets 1) = some dr ∧
      ∀ i : Nat, (i : Int) < 2 →
        ∃ di, distance (signature exLib i) (signature exTargets 1) = some di ∧ dr ≤ di :=
  match_batch_nearest_neighbour exLib exTargets 2 3 [7, 7, 7] 1
    (by decide) (by decide) (by decide) (by rw [exLib_length]; decide)
    (by rw [exTargets_length]; decide) (by decide) (by decide)

/-- Claim C3. Tie-break: for a library of n_pages > 0 entries, the index r that match_batch
writes for a target is below n_pages, entry r is at the minimal distance (no entry below
n_pages is nearer to the target), every earlier entry i < r is strictly farther from the
target than entry r, and every entry at the distance of entry r has an index of r or more:
r is the lowest index among the entries at the minimal distance. -/
theorem match_batch_lowest_index (lib targets : List Nat) (n_pages num_targets : Int)
    (results : List Int) (t : Nat)
    (hpos : 0 < n_pages) (hn : n_pages ≤ 33554432) (hm : num_targets ≤ 33554432)
    (hlib : n_pages * 64 ≤ (lib.length : Int))
    (htg : num_targets * 64 ≤ (targets.length : Int))
    (hres : num_targets ≤ (results.length : Int))
    (ht : (t : Int) < num_targets) :
    ∃ (out : List Int) (r dr : Nat),
      match_batch lib targets n_pages num_targets results = some out ∧
      out[t]? = some (r : Int) ∧ (r : Int) < n_pages ∧
      distance (signature lib r) (signature targets t) = some dr ∧
      ∀ i : Nat, (i : Int) < n_pages →
        ∃ di, distance (signature lib i) (signature targets t) = some di ∧
          dr ≤ di ∧ (i < r → dr < di) ∧ (di = dr → r ≤ i) := by
  obtain ⟨out, hout, _, h1, _⟩ :=
    match_batch_spec lib targets n_pages num_targets results hn hm hlib htg hres
  obtain ⟨r, hr, _, hbest⟩ :=
    bestIndex_spec lib targets n_pages t hn hlib (by omega) (by omega)
  obtain ⟨rn, hrn, hlt, hmin, hfirst⟩ := hbest hpos
  refine ⟨out, rn, closedDist lib targets t rn, hout, ?_, hlt, ?_, ?_⟩
  · rw [h1 t ht, hr, hrn]
  · exact distance_closed lib targets n_pages t rn hlib (by omega) hlt
  · intro i hi
    refine ⟨_, distance_closed lib targets n_pages t i hlib (by omega) hi, hmin i hi,
      fun hir => hfirst i hir, ?_⟩
    intro heq
    by_contra hlt2
    have := hfirst i (by omega)
    omega

set_option maxRecDepth 1000000 in
/-- Witness of C3: the library holds the all-one signature and then the all-zero signature
twice, and the target is the all-zero signature with one bit flipped. Entry 0 is at distance
4095, entries 1 and 2 are both at the minimal distance 1, and the index written is 1. -/
theorem match_batch_lowest_index_witness :
    (distance (signature exTies3 0) (signature exTargetsC 1) = some 4095 ∧
      distance (signature exTies3 1) (signature exTargetsC 1) = some 1 ∧
      distance (signature exTies3 2) (signature exTargetsC 1) = some 1 ∧
      match_batch exTies3 exTargetsC 3 2 [7, 7] = some [1, 1]) ∧
    ∃ (out : List Int) (r dr : Nat),
      match_batch exTies3 exTargetsC 3 2 [7, 7] = some out ∧
      out[1]? = some (r : Int) ∧ (r : Int) < 3 ∧
      distance (signature exTies3 r) (signature exTargetsC 1) = some dr ∧
      ∀ i : Nat, (i : Int) < 3 →
        ∃ di, distance (signature exTies3 i) (signature exTargetsC 1) = some di ∧
          dr ≤ di ∧ (i < r → dr < di) ∧ (di = dr → r ≤ i) :=
  ⟨⟨by decide, by decide, by decide, by decide⟩,
    match_batch_lowest_index exTies3 exTargetsC 3 2 [7, 7] 1
      (by decide) (by decide) (by decide) (by rw [exTies3_length]; decide)
      (by rw [exTargetsC_length]; decide) (by decide) (by decide)⟩

/-- Claim C4. Early-exit correctness: the scan of one target with the break on distance 0
returns an index, and the scan with the break removed returns the same index; when some
library entry is at distance 0 from the target, that index is the lowest index of an entry
at distance 0. -/
theorem early_exit_correct (lib targets : List Nat) (n_pages : Int) (t : Nat)
    (hn : n_pages ≤ 33554432) (hlib : n_pages * 64 ≤ (lib.length : Int))
    (ht : t < 33554432) (htg : 64 * t + 64 ≤ targets.length) :
    ∃ r : Int, bestIndex lib targets n_pages (t : Int) = some r ∧
      bestIndexNoBreak lib targets n_pages (t : Int) = some r ∧
      ((∃ k : Nat, (k : Int) < n_pages ∧
          distance (signature lib k) (signature targets t) = some 0) →
        ∃ rn : Nat, r = (rn : Int) ∧ (rn : Int) < n_pages ∧
          distance (signature lib rn) (signature targets t) = some 0 ∧
          ∀ i : Nat, i < rn → distance (signature lib i) (signature targets t) ≠ some 0) := by
  obtain ⟨r, hr, _, hbest⟩ := bestIndex_spec lib targets n_pages t hn hlib ht htg
  refine ⟨r, hr, by rw [bestIndexNoBreak_eq lib targets n_pages t hn hlib ht htg, hr], ?_⟩
  rintro ⟨k, hk, hk0⟩
  obtain ⟨rn, hrn, hlt, hmin, hfirst⟩ := hbest (by omega)
  rw [distance_closed lib targets n_pages t k hlib htg hk, Option.some_inj] at hk0
  have hz : closedDist lib targets t rn = 0 := by
    have := hmin k hk
    omega
  refine ⟨rn, hrn, hlt, ?_, ?_⟩
  · rw [distance_closed lib targets n_pages t rn hlib htg hlt, hz]
  · intro i hi
    rw [distance_closed lib targets n_pages t i hlib htg (by omega), Ne, Option.some_inj]
    have := hfirst i hi
    omega

/-- Witness of C4: the two-entry library and the three targets, target 2. -/
theorem early_exit_correct_witness :
    ∃ r : Int, bestIndex exLib exTargets 2 ((2 : Nat) : Int) = some r ∧
      bestIndexNoBreak exLib exTargets 2 ((2 : Nat) : Int) = some r ∧
      ((∃ k : Nat, (k : Int) < 2 ∧
          distance (signature exLib k) (signature exTargets 2) = some 0) →
        ∃ rn : Nat, r = (rn : Int) ∧ (rn : Int) < 2 ∧
          distance (signature exLib rn) (signature exTargets 2) = some 0 ∧
          ∀ i : Nat, i < rn → distance (signature exLib i) (signature exTargets 2) ≠ some 0) :=
  early_exit_correct exLib exTargets 2 2 (by decide) (by rw [exLib_length]; decide)
    (by decide) (by rw [exTargets_length])

/-- Claim C5. For n_pages > 0 and t < num_targets, the value match_batch writes to
results[t] is at least 0 and below n_pages. -/
theorem match_batch_index_in_range (lib targets : List Nat) (n_pages num_targets : Int)
    (results : List Int) (t : Nat)
    (hpos : 0 < n_pages) (hn : n_pages ≤ 33554432) (hm : num_targets ≤ 33554432)
    (hlib : n_pages * 64 ≤ (lib.length : Int))
    (htg : num_targets * 64 ≤ (targets.length : Int))
    (hres : num_targets ≤ (results.length : Int))
    (ht : (t : Int) < num_targets) :
    ∃ (out : List Int) (r : Int),
      match_batch lib targets n_pages num_targets results = some out ∧
      out[t]? = some r ∧ 0 ≤ r ∧ r < n_pages := by
  obtain ⟨out, hout, _, h1, _⟩ :=
    match_batch_spec lib targets n_pages num_targets results hn hm hlib htg hres
  obtain ⟨r, hr, _, hbest⟩ :=
    bestIndex_spec lib targets n_pages t hn hlib (by omega) (by omega)
  obtain ⟨rn, hrn, hlt, _, _⟩ := hbest hpos
  refine ⟨out, r, hout, ?_, by omega, by omega⟩
  rw [h1 t ht, hr]

/-- Witness of C5: the two-entry library and the three targets, target 0. -/
theorem match_batch_index_in_range_witness :
    ∃ (out : List Int) (r : Int),
      match_batch exLib exTargets 2 3 [7, 7, 7] = some out ∧
      out[0]? = some r ∧ 0 ≤ r ∧ r < 2 :=
  match_batch_index_in_range exLib exTargets 2 3 [7, 7, 7] 0
    (by decide) (by decide) (by decide) (by rw [exLib_length]; decide)
    (by rw [exTargets_length]; decide) (by decide) (by decide)

/-! ## The empty library -/

/-- Counterexample to C6: with n_pages = 0 and num_targets = 3 the three results are the
index 0, whatever marker the caller had stored in the slots before the call. -/
theorem empty_library_reports_index_zero :
    match_batch [] exTargets 0 3 [-1, -1, -1] = some [0, 0, 0] := by
  decide

/-- Claim C6, amended. When n_pages = 0, match_batch writes the index 0 to results[t] for
every t < num_targets; it has no marker for the absence of a match. -/
theorem empty_library_writes_zero (lib targets : List Nat) (num_targets : Int)
    (results : List Int) (hres : num_targets ≤ (results.length : Int)) :
    ∃ out, match_batch lib targets 0 num_targets results = some out ∧
      ∀ t : Nat, (t : Int) < num_targets → out[t]? = some 0 := by
  obtain ⟨out, hout, _, h1, _⟩ := targetLoop_spec lib targets 0 (fun _ => 0)
    num_targets.toNat 0 results (fun s _ _ => by simp [bestIndex, scanLoop]) (by omega)
  simp only [Nat.cast_zero] at hout
  exact ⟨out, hout, fun t ht => h1 t (Nat.zero_le t) (by omega)⟩

/-- Witness of C6, amended: no library, three targets. -/
theorem empty_library_writes_zero_witness :
    ∃ out, match_batch [] exTargets 0 3 [-1, -1, -1] = some out ∧
      ∀ t : Nat, (t : Int) < 3 → out[t]? = some 0 :=
  empty_library_writes_zero [] exTargets 3 [-1, -1, -1] (by decide)

/-! ## The result set -/

/-- Claim C7. Result-set frame: match_batch returns a result array of the length of the one
it was given; slot t < num_targets holds the best index of target t, which does not depend
on the prior contents of the array; every slot at an index of num_targets or more holds its
prior value; and with num_targets = 0 the array is returned unchanged for every n_pages. -/
theorem match_batch_frame (lib targets : List Nat) (n_pages num_targets : Int)
    (results : List Int)
    (hn : n_pages ≤ 33554432) (hm : num_targets ≤ 33554432)
    (hlib : n_pages * 64 ≤ (lib.length : Int))
    (htg : num_targets * 64 ≤ (targets.length : Int))
    (hres : num_targets ≤ (results.length : Int)) :
    (∃ out, match_batch lib targets n_pages num_targets results = some out ∧
      out.length = results.length ∧
      (∀ t : Nat, (t : Int) < num_targets →
        out[t]? = bestIndex lib targets n_pages (t : Int) ∧ (out[t]?).isSome) ∧
      (∀ s : Nat, num_targets ≤ (s : Int) → out[s]? = results[s]?)) ∧
    (∀ (lib1 targets1 : List Nat) (n_pages1 : Int),
      match_batch lib1 targets1 n_pages1 0 results = some results) := by
  obtain ⟨out, hout, hl, h1, h2⟩ :=
    match_batch_spec lib targets n_pages num_targets results hn hm hlib htg hres
  refine ⟨⟨out, hout, hl, ?_, h2⟩, ?_⟩
  · intro t ht
    refine ⟨h1 t ht, ?_⟩
    rw [List.getElem?_eq_getElem (by omega)]
    rfl
  · intro lib1 targets1 n_pages1
    simp [match_batch, targetLoop]

/-- Witness of C7: two targets are matched and the third slot of the result array is kept. -/
theorem match_batch_frame_witness :
    (∃ out, match_batch exLib exTargets 2 2 [7, 8, 9] = some out ∧
      out.length = [(7 : Int), 8, 9].length ∧
      (∀ t : Nat, (t : Int) < 2 →
        out[t]? = bestIndex exLib exTargets 2 (t : Int) ∧ (out[t]?).isSome) ∧
      (∀ s : Nat, (2 : Int) ≤ (s : Int) → out[s]? = [(7 : Int), 8, 9][s]?)) ∧
    (∀ (lib1 targets1 : List Nat) (n_pages1 : Int),
      match_batch lib1 targets1 n_pages1 0 [7, 8, 9] = some [7, 8, 9]) :=
  match_batch_frame exLib exTargets 2 2 [7, 8, 9]
    (by decide) (by decide) (by rw [exLib_length]; decide)
    (by rw [exTargets_length]; decide) (by decide)

/-! ## The distance is a metric -/

/-- Claim C8. Symmetry: for signatures a and b of 64 words, the inner loop computes the same
distance for (a, b) and for (b, a). -/
theorem distance_symm (a b : List Nat) (ha : a.length = 64) (hb : b.length = 64) :
    ∃ d, distance a b = some d ∧ distance b a = some d := by
  unfold distance
  refine ⟨_, distLoop_sig a b ha hb, ?_⟩
  rw [distLoop_sig b a hb ha]
  simp only [Nat.xor_comm]

/-- Witness of C8 at the all-zero and the all-one signature. -/
theorem distance_symm_witness :
    ∃ d, distance sigZero sigOnes = some d ∧ distance sigOnes sigZero = some d :=
  distance_symm sigZero sigOnes (by decide) (by decide)

/-- Claim C9. Identity of indiscernibles: for signatures a and b of 64 words of 64 bits, the
distance is 0 exactly when a and b agree in each of their 64 words, and the distance of a
signature to itself is 0. -/
theorem distance_eq_zero_iff (a b : List Nat) (ha : a.length = 64) (hb : b.length = 64)
    (hwa : ∀ w ∈ a, w < 18446744073709551616) (hwb : ∀ w ∈ b, w < 18446744073709551616) :
    (distance a b = some 0 ↔ ∀ j, j < 64 → a[j]? = b[j]?) ∧ distance a a = some 0 := by
  unfold distance
  have key : ∀ j, j < 64 →
      (popcountll (a.getD j 0 ^^^ b.getD j 0) = 0 ↔ a[j]? = b[j]?) := by
    intro j hj
    have hja : j < a.length := by omega
    have hjb : j < b.length := by omega
    rw [popcountll_xor_eq_zero _ _ (by
        rw [List.getD_eq_getElem _ _ hja]; exact hwa _ (List.getElem_mem _))
      (by rw [List.getD_eq_getElem _ _ hjb]; exact hwb _ (List.getElem_mem _))]
    rw [List.getD_eq_getElem _ _ hja, List.getD_eq_getElem _ _ hjb,
      List.getElem?_eq_getElem hja, List.getElem?_eq_getElem hjb]
    simp
  constructor
  · rw [distLoop_sig a b ha hb, Option.some_inj, Finset.sum_eq_zero_iff]
    constructor
    · intro h j hj
      exact (key j hj).mp (h j (Finset.mem_range.mpr hj))
    · intro h j hj
      exact (key j (Finset.mem_range.mp hj)).mpr (h j (Finset.mem_range.mp hj))
  · rw [distLoop_sig a a ha ha]
    simp [popcountll, popcountBits]

/-- Witness of C9 at the all-zero and the all-one signature. -/
theorem distance_eq_zero_iff_witness :
    (distance sigZero sigOnes = some 0 ↔ ∀ j, j < 64 → sigZero[j]? = sigOnes[j]?)
      ∧ distance sigZero sigZero = some 0 :=
  distance_eq_zero_iff sigZero sigOnes (by decide) (by decide)
    (fun w hw => by rw [List.eq_of_mem_replicate hw]; decide)
    (fun w hw => by rw [List.eq_of_mem_replicate hw]; decide)

/-- Claim C10. Triangle inequality: for signatures a, b and c of 64 words, the distance of
a and c is at most the distance of a and b plus the distance of b and c. -/
theorem distance_triangle (a b c : List Nat) (ha : a.length = 64) (hb : b.length = 64)
    (hc : c.length = 64) :
    ∃ dab dbc dac, distance a b = some dab ∧ distance b c = some dbc
      ∧ distance a c = some dac ∧ dac ≤ dab + dbc := by
  unfold distance
  refine ⟨_, _, _, distLoop_sig a b ha hb, distLoop_sig b c hb hc, distLoop_sig a c ha hc, ?_⟩
  rw [← Finset.sum_add_distrib]
  apply Finset.sum_le_sum
  intro j _
  exact popcountll_xor_triangle _ _ _

/-- Witness of C10 at the all-zero, the all-one and again the all-zero signature. -/
theorem distance_triangle_witness :
    ∃ dab dbc dac, distance sigZero sigOnes = some dab ∧ distance sigOnes sigZero = some dbc
      ∧ distance sigZero sigZero = some dac ∧ dac ≤ dab + dbc :=
  distance_triangle sigZero sigOnes sigZero (by decide) (by decide) (by decide)

/-! ## The accumulator never overflows -/

/-- Claim C11. For signatures a and b of 64 words, the accumulator after j words (the inner
loop run for j iterations from dist = 0) is the exact, unreduced sum of the first j popcounts
and is at most 64 * j, so the reduction modulo 2^32 never changes it; the final distance is
at most 4096 and strictly below the initial value 0xFFFFFFFF of min_dist. -/
theorem distance_no_overflow (a b : List Nat) (ha : a.length = 64) (hb : b.length = 64) :
    (∀ j, j ≤ 64 → ∃ d, distLoop a b 0 0 j 0 0 = some d ∧
        d = ∑ k in range j, popcountll (a.getD k 0 ^^^ b.getD k 0) ∧ d ≤ 64 * j) ∧
    ∃ d, distance a b = some d ∧ d ≤ 4096 ∧ d < 4294967295 := by
  have hpart : ∀ j, j ≤ 64 → ∃ d, distLoop a b 0 0 j 0 0 = some d ∧
      d = ∑ k in range j, popcountll (a.getD k 0 ^^^ b.getD k 0) ∧ d ≤ 64 * j := by
    intro j hj
    have h := distLoop_eq a b 0 0 j 0 0 (by omega) (by omega) (by omega)
    simp only [Nat.cast_zero, Nat.zero_add] at h
    refine ⟨_, h, rfl, ?_⟩
    calc ∑ k in range j, popcountll (a.getD k 0 ^^^ b.getD k 0)
        ≤ ∑ _k in range j, 64 := Finset.sum_le_sum (fun k _ => popcountll_le _)
      _ = 64 * j := by simp [Nat.mul_comm]
  refine ⟨hpart, ?_⟩
  obtain ⟨d, hd, _, hle⟩ := hpart 64 (Nat.le_refl 64)
  exact ⟨d, hd, by omega, by omega⟩

/-- Witness of C11 at the all-zero and the all-one signature, whose distance is 4096. -/
theorem distance_no_overflow_witness :
    (∀ j, j ≤ 64 → ∃ d, distLoop sigZero sigOnes 0 0 j 0 0 = some d ∧
        d = ∑ k in range j, popcountll (sigZero.getD k 0 ^^^ sigOnes.getD k 0) ∧ d ≤ 64 * j) ∧
    ∃ d, distance sigZero sigOnes = some d ∧ d ≤ 4096 ∧ d < 4294967295 :=
  distance_no_overflow sigZero sigOnes (by decide) (by decide)

/-! ## Memory safety and the width of the offsets -/

theorem readWord_isSome (mem : List Nat) (off : Int) (h0 : 0 ≤ off)
    (h1 : off < (mem.length : Int)) : (readWord mem off).isSome = true := by
  unfold readWord
  rw [if_pos h0, List.getElem?_eq_getElem (by omega)]
  rfl

/-- Claim C17. In-bounds access under the size precondition: when lib holds n_pages * 64
words, targets holds num_targets * 64 words, results holds num_targets slots and both counts
are at most 2^25, the call returns a result array, which in this embedding means that no
read and no write it performed was outside its array; moreover every access the loops can
reach, lib[i * 64 + j], targets[t * 64 + j] and results[t] for i < n_pages, t < num_targets
and j < 64, is inside its array. -/
theorem match_batch_in_bounds (lib targets : List Nat) (n_pages num_targets : Int)
    (results : List Int)
    (hn : n_pages ≤ 33554432) (hm : num_targets ≤ 33554432)
    (hlib : n_pages * 64 ≤ (lib.length : Int))
    (htg : num_targets * 64 ≤ (targets.length : Int))
    (hres : num_targets ≤ (results.length : Int)) :
    (∃ out, match_batch lib targets n_pages num_targets results = some out ∧
      out.length = results.length) ∧
    (∀ i j : Int, 0 ≤ i → i < n_pages → 0 ≤ j → j < 64 →
      (readWord lib (mulInt32 i 64 + j)).isSome = true) ∧
    (∀ t j : Int, 0 ≤ t → t < num_targets → 0 ≤ j → j < 64 →
      (readWord targets (mulInt32 t 64 + j)).isSome = true) ∧
    (∀ (t v : Int) (res : List Int), 0 ≤ t → t < num_targets → res.length = results.length →
      (writeResult res t v).isSome = true) := by
  obtain ⟨out, hout, hl, _, _⟩ :=
    match_batch_spec lib targets n_pages num_targets results hn hm hlib htg hres
  refine ⟨⟨out, hout, hl⟩, ?_, ?_, ?_⟩
  · intro i j hi0 hi hj0 hj
    rw [mulInt32_exact i hi0 (by omega)]
    exact readWord_isSome lib _ (by omega) (by omega)
  · intro t j ht0 ht hj0 hj
    rw [mulInt32_exact t ht0 (by omega)]
    exact readWord_isSome targets _ (by omega) (by omega)
  · intro t v res ht0 ht hlen
    unfold writeResult
    rw [if_pos ⟨ht0, by omega⟩]
    rfl

/-- Witness of C17: the two-entry library and the three targets. -/
theorem match_batch_in_bounds_witness :
    (∃ out, match_batch exLib exTargets 2 3 [7, 7, 7] = some out ∧
      out.length = [(7 : Int), 7, 7].length) ∧
    (∀ i j : Int, 0 ≤ i → i < 2 → 0 ≤ j → j < 64 →
      (readWord exLib (mulInt32 i 64 + j)).isSome = true) ∧
    (∀ t j : Int, 0 ≤ t → t < 3 → 0 ≤ j → j < 64 →
      (readWord exTargets (mulInt32 t 64 + j)).isSome = true) ∧
    (∀ (t v : Int) (res : List Int), 0 ≤ t → t < 3 → res.length = [(7 : Int), 7, 7].length →
      (writeResult res t v).isSome = true) :=
  match_batch_in_bounds exLib exTargets 2 3 [7, 7, 7]
    (by decide) (by decide) (by rw [exLib_length]; decide)
    (by rw [exTargets_length]; decide) (by decide)

theorem scanLoop_congr (lib1 targets1 lib2 targets2 : List Nat) (off1 off2 : Int) (fuel : Nat) :
    ∀ (i min_dist : Nat) (best_idx : Int),
      (∀ k : Nat, i ≤ k → k < i + fuel →
        entryDist lib1 targets1 off1 (k : Int) = entryDist lib2 targets2 off2 (k : Int)) →
      scanLoop lib1 targets1 off1 fuel (i : Int) min_dist best_idx
        = scanLoop lib2 targets2 off2 fuel (i : Int) min_dist best_idx := by
  induction fuel with
  | zero => intro i min_dist best_idx _; simp [scanLoop]
  | succ fuel ih =>
    intro i min_dist best_idx h
    have hcast : ((i : Int) + 1) = ((i + 1 : Nat) : Int) := by push_cast; rfl
    have h1 : ∀ k : Nat, i + 1 ≤ k → k < (i + 1) + fuel →
        entryDist lib1 targets1 off1 (k : Int) = entryDist lib2 targets2 off2 (k : Int) :=
      fun k hk1 hk2 => h k (by omega) (by omega)
    rw [scanLoop, scanLoop, h i (Nat.le_refl i) (by omega), hcast]
    cases entryDist lib2 targets2 off2 (i : Int) with
    | none => rfl
    | some dist =>
      simp only
      rw [ih (i + 1) dist (i : Int) h1, ih (i + 1) min_dist best_idx h1]

theorem targetLoop_congr (lib1 targets1 lib2 targets2 : List Nat) (n1 n2 : Int) (fuel : Nat) :
    ∀ (t : Nat) (results : List Int),
      (∀ s : Nat, t ≤ s → s < t + fuel →
        bestIndex lib1 targets1 n1 (s : Int) = bestIndex lib2 targets2 n2 (s : Int)) →
      targetLoop lib1 targets1 n1 fuel (t : Int) results
        = targetLoop lib2 targets2 n2 fuel (t : Int) results := by
  induction fuel with
  | zero => intro t results _; simp [targetLoop]
  | succ fuel ih =>
    intro t results h
    have hcast : ((t : Int) + 1) = ((t + 1 : Nat) : Int) := by push_cast; rfl
    rw [targetLoop, targetLoop, h t (Nat.le_refl t) (by omega), hcast]
    cases bestIndex lib2 targets2 n2 (t : Int) with
    | none => rfl
    | some best_idx =>
      simp only
      cases writeResult results (t : Int) best_idx with
      | none => rfl
      | some results1 =>
        simp only
        exact ih (t + 1) results1 (fun s hs1 hs2 => h s (by omega) (by omega))

theorem closedDist_congr_target (lib targets1 targets2 : List Nat) (t i : Nat)
    (hsig : signature targets1 t = signature targets2 t) :
    closedDist lib targets1 t i = closedDist lib targets2 t i := by
  unfold closedDist
  apply Finset.sum_congr rfl
  intro j hj
  rw [← signature_getD targets1 t j (Finset.mem_range.mp hj),
    ← signature_getD targets2 t j (Finset.mem_range.mp hj), hsig]

theorem bestIndex_congr_target (lib targets1 targets2 : List Nat) (n_pages : Int) (t : Nat)
    (hn : n_pages ≤ 33554432) (hlib : n_pages * 64 ≤ (lib.length : Int))
    (ht : t < 33554432) (htg1 : 64 * t + 64 ≤ targets1.length)
    (htg2 : 64 * t + 64 ≤ targets2.length)
    (hsig : signature targets1 t = signature targets2 t) :
    bestIndex lib targets1 n_pages (t : Int) = bestIndex lib targets2 n_pages (t : Int) := by
  have h := scanLoop_congr lib targets1 lib targets2 (mulInt32 (t : Int) 64)
    (mulInt32 (t : Int) 64) n_pages.toNat 0 4294967295 0 (by
      intro k hk1 hk2
      rw [entryDist_closed lib targets1 n_pages t hn hlib ht htg1 k hk1 hk2,
        entryDist_closed lib targets2 n_pages t hn hlib ht htg2 k hk1 hk2,
        closedDist_congr_target lib targets1 targets2 t k hsig])
  simp only [Nat.cast_zero] at h
  exact h

/-! ## Independence of the targets -/

/-- Claim C13. Per-target independence: two calls over the same library whose target batches
agree on signature t, and may differ in every other signature, in the number of targets and
in the prior contents of the result array, write the same value to results[t]. -/
theorem match_batch_target_independent (lib targets1 targets2 : List Nat)
    (n_pages num_targets1 num_targets2 : Int) (results1 results2 : List Int) (t : Nat)
    (hn : n_pages ≤ 33554432) (hlib : n_pages * 64 ≤ (lib.length : Int))
    (hm1 : num_targets1 ≤ 33554432) (hm2 : num_targets2 ≤ 33554432)
    (htg1 : num_targets1 * 64 ≤ (targets1.length : Int))
    (htg2 : num_targets2 * 64 ≤ (targets2.length : Int))
    (hres1 : num_targets1 ≤ (results1.length : Int))
    (hres2 : num_targets2 ≤ (results2.length : Int))
    (ht1 : (t : Int) < num_targets1) (ht2 : (t : Int) < num_targets2)
    (hsig : signature targets1 t = signature targets2 t) :
    ∃ (out1 out2 : List Int) (r : Int),
      match_batch lib targets1 n_pages num_targets1 results1 = some out1 ∧
      match_batch lib targets2 n_pages num_targets2 results2 = some out2 ∧
      out1[t]? = some r ∧ out2[t]? = some r := by
  obtain ⟨out1, hout1, _, h1, _⟩ :=
    match_batch_spec lib targets1 n_pages num_targets1 results1 hn hm1 hlib htg1 hres1
  obtain ⟨out2, hout2, _, h2, _⟩ :=
    match_batch_spec lib targets2 n_pages num_targets2 results2 hn hm2 hlib htg2 hres2
  obtain ⟨r, hr, _⟩ := bestIndex_spec lib targets1 n_pages t hn hlib (by omega) (by omega)
  refine ⟨out1, out2, r, hout1, hout2, ?_, ?_⟩
  · rw [h1 t ht1, hr]
  · rw [h2 t ht2, ← bestIndex_congr_target lib targets1 targets2 n_pages t hn hlib (by omega)
      (by omega) (by omega) hsig, hr]

theorem exTargetsB_length : exTargetsB.length = 128 := by
  simp only [exTargetsB, sigZero, List.length_append, List.length_replicate]

/-- Witness of C13: two batches of three and of two targets that agree on target 1 only. -/
theorem match_batch_target_independent_witness :
    ∃ (out1 out2 : List Int) (r : Int),
      match_batch exLib exTargets 2 3 [7, 7, 7] = some out1 ∧
      match_batch exLib exTargetsB 2 2 [8, 9] = some out2 ∧
      out1[1]? = some r ∧ out2[1]? = some r :=
  match_batch_target_independent exLib exTargets exTargetsB 2 3 2 [7, 7, 7] [8, 9] 1
    (by decide) (by rw [exLib_length]; decide) (by decide) (by decide)
    (by rw [exTargets_length]; decide) (by rw [exTargetsB_length]; decide)
    (by decide) (by decide) (by decide) (by decide) (by decide)

/-! ## The default index of an empty library -/

theorem bestIndex_nonpos (lib targets : List Nat) (n_pages t : Int) (hn : n_pages ≤ 0) :
    bestIndex lib targets n_pages t = some 0 := by
  have hz : n_pages.toNat = 0 := by omega
  unfold bestIndex
  rw [hz, scanLoop]

theorem bestIndex_one_entry (lib targets : List Nat) (t : Nat) (hlib : 64 ≤ lib.length)
    (ht : t < 33554432) (htg : 64 * t + 64 ≤ targets.length) :
    bestIndex lib targets 1 (t : Int) = some 0 := by
  obtain ⟨r, hr, _, hbest⟩ := bestIndex_spec lib targets 1 t (by decide) (by omega) ht htg
  obtain ⟨rn, hrn, hlt, _, _⟩ := hbest (by decide)
  rw [hr, hrn]
  have : rn = 0 := by omega
  rw [this]
  rfl

/-- Claim C15. Default index on an empty library: when n_pages <= 0 the scan reads nothing
and match_batch writes 0 to results[t] for every t < num_targets, and the result array is
equal to the one the call returns for any library of one entry, where entry 0 is the best
match of every target; the output does not tell the two cases apart. -/
theorem empty_library_aliases_entry_zero (lib targets : List Nat) (n_pages num_targets : Int)
    (results : List Int) (hn : n_pages ≤ 0) (hres : num_targets ≤ (results.length : Int)) :
    ∃ out, match_batch lib targets n_pages num_targets results = some out ∧
      match_batch [] [] n_pages num_targets results = some out ∧
      (∀ t : Nat, (t : Int) < num_targets → out[t]? = some 0) ∧
      (∀ lib1 : List Nat, 64 ≤ lib1.length → num_targets ≤ 33554432 →
        num_targets * 64 ≤ (targets.length : Int) →
        match_batch lib1 targets 1 num_targets results = some out) := by
  obtain ⟨out, hout, _, h1, _⟩ := targetLoop_spec lib targets n_pages (fun _ => 0)
    num_targets.toNat 0 results
    (fun s _ _ => bestIndex_nonpos lib targets n_pages (s : Int) hn) (by omega)
  simp only [Nat.cast_zero] at hout
  refine ⟨out, hout, ?_, fun t ht => h1 t (Nat.zero_le t) (by omega), ?_⟩
  · rw [← hout]
    unfold match_batch
    have h := targetLoop_congr [] [] lib targets n_pages n_pages num_targets.toNat 0 results
      (fun s _ _ => by
        rw [bestIndex_nonpos [] [] n_pages (s : Int) hn,
          bestIndex_nonpos lib targets n_pages (s : Int) hn])
    simp only [Nat.cast_zero] at h
    exact h
  · intro lib1 hlib1 hm htg
    rw [← hout]
    unfold match_batch
    have h := targetLoop_congr lib1 targets lib targets 1 n_pages num_targets.toNat 0 results
      (fun s _ hs => by
        rw [bestIndex_one_entry lib1 targets s hlib1 (by omega) (by omega),
          bestIndex_nonpos lib targets n_pages (s : Int) hn])
    simp only [Nat.cast_zero] at h
    exact h

/-- Witness of C15: no library and three targets, against the one-entry libraries. -/
theorem empty_library_aliases_entry_zero_witness :
    ∃ out, match_batch [] exTargets 0 3 [-1, -1, -1] = some out ∧
      match_batch [] [] 0 3 [-1, -1, -1] = some out ∧
      (∀ t : Nat, (t : Int) < 3 → out[t]? = some 0) ∧
      (∀ lib1 : List Nat, 64 ≤ lib1.length → (3 : Int) ≤ 33554432 →
        (3 : Int) * 64 ≤ (exTargets.length : Int) →
        match_batch lib1 exTargets 1 3 [-1, -1, -1] = some out) :=
  empty_library_aliases_entry_zero [] exTargets 0 3 [-1, -1, -1] (by decide) (by decide)

/-! ## The early exit reads nothing past a perfect match -/

theorem scanLoop_stops (lib targets : List Nat) (tgtOff : Int) (d : Nat → Nat) (k fuel : Nat) :
    ∀ (i min_dist : Nat) (best_idx : Int),
      (∀ j, i ≤ j → j ≤ k → entryDist lib targets tgtOff (j : Int) = some (d j)) →
      (∀ j, i ≤ j → j < k → d j ≠ 0) → d k = 0 → i ≤ k → k < i + fuel → 0 < min_dist →
      scanLoop lib targets tgtOff fuel (i : Int) min_dist best_idx = some (k : Int) := by
  induction fuel with
  | zero => intro i min_dist best_idx _ _ _ h1 h2 _; omega
  | succ fuel ih =>
    intro i min_dist best_idx hd hnz hk hik hfuel hmin
    have hcast : ((i : Int) + 1) = ((i + 1 : Nat) : Int) := by push_cast; rfl
    rw [scanLoop, hd i (Nat.le_refl i) hik]
    simp only
    rcases Nat.eq_or_lt_of_le hik with h | h
    · subst h
      rw [hk, if_pos hmin, if_pos rfl]
    · have hne := hnz i (Nat.le_refl i) h
      have hd1 : ∀ j, i + 1 ≤ j → j ≤ k → entryDist lib targets tgtOff (j : Int) = some (d j) :=
        fun j h1 h2 => hd j (by omega) h2
      have hnz1 : ∀ j, i + 1 ≤ j → j < k → d j ≠ 0 := fun j h1 h2 => hnz j (by omega) h2
      by_cases hlt : d i < min_dist
      · rw [if_pos hlt, if_neg hne, hcast]
        exact ih (i + 1) (d i) (i : Int) hd1 hnz1 hk (by omega) (by omega) (by omega)
      · rw [if_neg hlt, hcast]
        exact ih (i + 1) min_dist best_idx hd1 hnz1 hk (by omega) (by omega) hmin

theorem bestIndex_stops (lib targets : List Nat) (n_pages : Int) (t k : Nat)
    (hk : k < 33554432) (hlib : 64 * k + 64 ≤ lib.length)
    (ht : t < 33554432) (htg : 64 * t + 64 ≤ targets.length)
    (hnp : (k : Int) < n_pages)
    (hzero : closedDist lib targets t k = 0)
    (hfirst : ∀ i : Nat, i < k → closedDist lib targets t i ≠ 0) :
    bestIndex lib targets n_pages (t : Int) = some (k : Int) := by
  have h := scanLoop_stops lib targets (mulInt32 (t : Int) 64) (closedDist lib targets t) k
    n_pages.toNat 0 4294967295 0 (by
      intro j _ hj
      exact entryDist_closed lib targets ((k : Int) + 1) t (by omega) (by omega) ht htg j
        (Nat.zero_le j) (by omega))
    (fun j _ hj => hfirst j hj) hzero (Nat.zero_le k) (by omega) (by decide)
  simp only [Nat.cast_zero] at h
  exact h

theorem closedDist_take (lib targets : List Nat) (t i m : Nat) (hi : 64 * i + 64 ≤ m) :
    closedDist (lib.take m) targets t i = closedDist lib targets t i := by
  unfold closedDist
  apply Finset.sum_congr rfl
  intro j hj
  have hj64 : j < 64 := Finset.mem_range.mp hj
  have hlt : 64 * i + j < m := by omega
  simp only [List.getD_eq_getElem?_getD, List.getElem?_take, hlt, if_true]

/-- Claim C16. Early termination reads nothing past a perfect match: when k is the lowest
index of a library entry at distance 0 from the target and n_pages > k, the scan returns k,
and it returns k as well on the library array cut down to its first (k + 1) * 64 words,
whatever n_pages is; so no library word at an offset of (k + 1) * 64 or more is read. -/
theorem early_exit_reads_no_further (lib targets : List Nat) (n_pages : Int) (t k : Nat)
    (hk : k < 33554432) (hlib : 64 * (k + 1) ≤ lib.length)
    (ht : t < 33554432) (htg : 64 * t + 64 ≤ targets.length)
    (hnp : (k : Int) < n_pages)
    (hzero : distance (signature lib k) (signature targets t) = some 0)
    (hfirst : ∀ i : Nat, i < k → distance (signature lib i) (signature targets t) ≠ some 0) :
    bestIndex (lib.take (64 * (k + 1))) targets n_pages (t : Int) = some (k : Int) ∧
    (lib.take (64 * (k + 1))).length = 64 * (k + 1) ∧
    bestIndex lib targets n_pages (t : Int) = some (k : Int) := by
  have hz : closedDist lib targets t k = 0 := by
    rw [distance_signature lib targets k t (by omega) htg, Option.some_inj] at hzero
    exact hzero
  have hf : ∀ i : Nat, i < k → closedDist lib targets t i ≠ 0 := by
    intro i hi h0
    apply hfirst i hi
    rw [distance_signature lib targets i t (by omega) htg]
    exact congrArg some h0
  have hlen : (lib.take (64 * (k + 1))).length = 64 * (k + 1) := by
    rw [List.length_take]
    omega
  refine ⟨?_, hlen, bestIndex_stops lib targets n_pages t k hk (by omega) ht htg hnp hz hf⟩
  apply bestIndex_stops (lib.take (64 * (k + 1))) targets n_pages t k hk (by omega) ht htg hnp
  · rw [closedDist_take lib targets t k _ (by omega)]
    exact hz
  · intro i hi
    rw [closedDist_take lib targets t i _ (by omega)]
    exact hf i hi

set_option maxRecDepth 1000000 in
/-- Witness of C16: the perfect match of the all-zero target is entry 0 of the two-entry
library, and the scan is asked for a thousand entries. -/
theorem early_exit_reads_no_further_witness :
    bestIndex (exLib.take (64 * (0 + 1))) exTargets 1000 ((1 : Nat) : Int) = some ((0 : Nat) : Int) ∧
    (exLib.take (64 * (0 + 1))).length = 64 * (0 + 1) ∧
    bestIndex exLib exTargets 1000 ((1 : Nat) : Int) = some ((0 : Nat) : Int) :=
  early_exit_reads_no_further exLib exTargets 1000 1 0 (by decide)
    (by rw [exLib_length]; decide) (by decide) (by rw [exTargets_length]; decide) (by decide)
    (by decide) (fun i hi => absurd hi (Nat.not_lt_zero i))

/-! ## Appending an entry to the library -/

theorem closedDist_append (lib s targets : List Nat) (t i : Nat)
    (hi : 64 * i + 64 ≤ lib.length) :
    closedDist (lib ++ s) targets t i = closedDist lib targets t i := by
  unfold closedDist
  apply Finset.sum_congr rfl
  intro j hj
  have hj64 : j < 64 := Finset.mem_range.mp hj
  rw [List.getD_append lib s 0 (64 * i + j) (by omega)]

theorem signature_append (lib s : List Nat) (n : Nat) (hlib : lib.length = 64 * n)
    (hs : s.length = 64) : signature (lib ++ s) n = s := by
  unfold signature
  rw [List.drop_left' hlib, List.take_of_length_le (by omega)]

/-- Claim C19. Stability under library extension: for a library of n >= 1 entries, an extra
signature s and a target, let r be the index match_batch writes for the target over the
library and let the extended library hold s as entry n. Over the extended library
match_batch writes n if s is strictly nearer to the target than entry r, and r otherwise. -/
theorem library_extension_stable (lib s targets : List Nat) (n : Nat) (num_targets : Int)
    (results : List Int) (t : Nat)
    (hn1 : 1 ≤ n) (hn : n < 33554432) (hlib : lib.length = 64 * n) (hs : s.length = 64)
    (hm : num_targets ≤ 33554432)
    (htg : num_targets * 64 ≤ (targets.length : Int))
    (hres : num_targets ≤ (results.length : Int))
    (ht : (t : Int) < num_targets) :
    ∃ (out out1 : List Int) (r dr ds : Nat),
      match_batch lib targets (n : Int) num_targets results = some out ∧
      match_batch (lib ++ s) targets ((n : Int) + 1) num_targets results = some out1 ∧
      out[t]? = some (r : Int) ∧
      distance (signature lib r) (signature targets t) = some dr ∧
      distance s (signature targets t) = some ds ∧
      out1[t]? = some (if ds < dr then (n : Int) else (r : Int)) := by
  have hlen1 : (lib ++ s).length = 64 * n + 64 := by rw [List.length_append, hlib, hs]
  have hlibI : (n : Int) * 64 ≤ (lib.length : Int) := by omega
  have hlibI1 : ((n : Int) + 1) * 64 ≤ ((lib ++ s).length : Int) := by omega
  have htN : 64 * t + 64 ≤ targets.length := by omega
  obtain ⟨out, hout, _, h1, _⟩ :=
    match_batch_spec lib targets (n : Int) num_targets results (by omega) hm hlibI htg hres
  obtain ⟨out1, hout1, _, h2, _⟩ :=
    match_batch_spec (lib ++ s) targets ((n : Int) + 1) num_targets results (by omega) hm
      hlibI1 htg hres
  obtain ⟨r, hr, _, hbest⟩ :=
    bestIndex_spec lib targets (n : Int) t (by omega) hlibI (by omega) htN
  obtain ⟨rn, hrn, hlt, hmin, hfirst⟩ := hbest (by omega)
  obtain ⟨r1, hr1, _, hbest1⟩ :=
    bestIndex_spec (lib ++ s) targets ((n : Int) + 1) t (by omega) hlibI1 (by omega) htN
  obtain ⟨rm, hrm, hlt1, hmin1, hfirst1⟩ := hbest1 (by omega)
  have hold : ∀ i : Nat, i < n →
      closedDist (lib ++ s) targets t i = closedDist lib targets t i :=
    fun i hi => closedDist_append lib s targets t i (by omega)
  have hds : distance s (signature targets t)
      = some (closedDist (lib ++ s) targets t n) := by
    have h := distance_signature (lib ++ s) targets n t (by omega) htN
    rw [signature_append lib s n hlib hs] at h
    exact h
  refine ⟨out, out1, rn, closedDist lib targets t rn, closedDist (lib ++ s) targets t n,
    hout, hout1, ?_, ?_, hds, ?_⟩
  · rw [h1 t ht, hr, hrn]
  · exact distance_signature lib targets rn t (by omega) htN
  · rw [h2 t ht, hr1, hrm]
    have hrnlt : rn < n := by omega
    have hrmle : rm ≤ n := by omega
    apply congrArg some
    by_cases hcase : closedDist (lib ++ s) targets t n < closedDist lib targets t rn
    · rw [if_pos hcase]
      rcases Nat.eq_or_lt_of_le hrmle with h | h
      · rw [h]
      · exfalso
        have a1 := hmin1 n (by omega)
        have a2 := hmin rm (by omega)
        rw [hold rm h] at a1
        omega
    · rw [if_neg hcase]
      rcases Nat.eq_or_lt_of_le hrmle with h | h
      · exfalso
        have a1 := hfirst1 rn (by omega)
        rw [hold rn hrnlt, h] at a1
        omega
      · have b1 := hmin1 rn (by omega)
        rw [hold rn hrnlt, hold rm h] at b1
        have b2 := hmin rm (by omega)
        have hEq : rm = rn := by
          rcases Nat.lt_trichotomy rm rn with c | c | c
          · have := hfirst rm c
            omega
          · exact c
          · have := hfirst1 rn c
            rw [hold rn hrnlt, hold rm h] at this
            omega
        rw [hEq]

/-- Witness of C19: the all-one signature is appended to a library holding the all-zero
signature only, and the targets are all-one, all-zero, all-one. -/
theorem library_extension_stable_witness :
    ∃ (out out1 : List Int) (r dr ds : Nat),
      match_batch sigZero exTargets ((1 : Nat) : Int) 3 [7, 7, 7] = some out ∧
      match_batch (sigZero ++ sigOnes) exTargets (((1 : Nat) : Int) + 1) 3 [7, 7, 7]
        = some out1 ∧
      out[0]? = some (r : Int) ∧
      distance (signature sigZero r) (signature exTargets 0) = some dr ∧
      distance sigOnes (signature exTargets 0) = some ds ∧
      out1[0]? = some (if ds < dr then ((1 : Nat) : Int) else (r : Int)) :=
  library_extension_stable sigZero sigOnes exTargets 1 3 [7, 7, 7] 0
    (by decide) (by decide) (by decide) (by decide) (by decide)
    (by rw [exTargets_length]; decide) (by decide) (by decide)

/-! ## The library of the all-zero and the all-one signature -/

theorem sigPopcount_eq_sum (x : List Nat) :
    sigPopcount x = ∑ j in range 64, popcountll (x.getD j 0) := by
  unfold sigPopcount
  rw [Finset.card_filter, show (4096 : Nat) = 64 * 64 from rfl, sum_range_blocks]
  apply Finset.sum_congr rfl
  intro j _
  unfold popcountll
  rw [popcountBits_eq_sum]
  apply Finset.sum_congr rfl
  intro k hk
  have hk64 : k < 64 := Finset.mem_range.mp hk
  have e1 : (64 * j + k) / 64 = j := by omega
  have e2 : (64 * j + k) % 64 = k := by omega
  simp only [sigBit, e1, e2]
  cases (x.getD j 0).testBit k <;> simp

theorem popcountll_zero_xor (w : Nat) : popcountll (0 ^^^ w) = popcountll w := by
  rw [Nat.zero_xor]

theorem popcountll_ones_xor (w : Nat) :
    popcountll (18446744073709551615 ^^^ w) + popcountll w = 64 := by
  have hw : popcountll w = ∑ k in range 64, (w.testBit k).toNat := by
    unfold popcountll
    rw [popcountBits_eq_sum]
  rw [popcountll_xor, hw, ← Finset.sum_add_distrib]
  have hone : ∀ k ∈ range 64,
      ((if Nat.testBit 18446744073709551615 k ≠ w.testBit k then 1 else 0)
        + (w.testBit k).toNat) = 1 := by
    intro k hk
    have hk64 : k < 64 := Finset.mem_range.mp hk
    have ht : Nat.testBit 18446744073709551615 k = true := by
      rw [show (18446744073709551615 : Nat) = 2 ^ 64 - 1 from rfl, Nat.testBit_two_pow_sub_one]
      exact decide_eq_true hk64
    rw [ht]
    cases w.testBit k <;> simp
  rw [Finset.sum_congr rfl hone]
  simp

theorem sigZero_getD (j : Nat) : sigZero.getD j 0 = 0 := by
  unfold sigZero
  rw [List.getD_eq_getElem?_getD, List.getElem?_replicate]
  split <;> rfl

theorem sigOnes_getD (j : Nat) (hj : j < 64) : sigOnes.getD j 0 = 18446744073709551615 := by
  unfold sigOnes
  rw [List.getD_eq_getElem?_getD, List.getElem?_replicate, if_pos hj]
  rfl

theorem distance_sigZero (x : List Nat) (hx : x.length = 64) :
    distance sigZero x = some (sigPopcount x) := by
  unfold distance
  rw [distLoop_sig sigZero x (by decide) hx, sigPopcount_eq_sum]
  apply congrArg some
  apply Finset.sum_congr rfl
  intro j _
  rw [sigZero_getD, popcountll_zero_xor]

theorem distance_sigOnes (x : List Nat) (hx : x.length = 64) :
    distance sigOnes x = some (4096 - sigPopcount x) := by
  unfold distance
  rw [distLoop_sig sigOnes x (by decide) hx, sigPopcount_eq_sum]
  apply congrArg some
  have hsum : (∑ j in range 64, popcountll (sigOnes.getD j 0 ^^^ x.getD j 0))
      + ∑ j in range 64, popcountll (x.getD j 0) = 4096 := by
    rw [← Finset.sum_add_distrib]
    have h64 : ∀ j ∈ range 64,
        popcountll (sigOnes.getD j 0 ^^^ x.getD j 0) + popcountll (x.getD j 0) = 64 := by
      intro j hj
      rw [sigOnes_getD j (Finset.mem_range.mp hj)]
      exact popcountll_ones_xor _
    rw [Finset.sum_congr rfl h64]
    simp
  omega

theorem signature_exLib_zero : signature exLib 0 = sigZero := by decide

theorem signature_exLib_one : signature exLib 1 = sigOnes := by decide

/-- Claim C12. For the library of the all-zero signature and the all-one signature and every
target x: the distance of the all-zero signature to x is the number of set bits of x, the
distance of the all-one signature to x is 4096 minus that number, and match_batch writes
index 0 when x has at most 2048 set bits and index 1 otherwise. -/
theorem two_entry_library (targets : List Nat) (num_targets : Int) (results : List Int)
    (t : Nat) (hm : num_targets ≤ 33554432)
    (htg : num_targets * 64 ≤ (targets.length : Int))
    (hres : num_targets ≤ (results.length : Int))
    (ht : (t : Int) < num_targets) :
    distance sigZero (signature targets t) = some (sigPopcount (signature targets t)) ∧
    distance sigOnes (signature targets t)
      = some (4096 - sigPopcount (signature targets t)) ∧
    ∃ out, match_batch exLib targets 2 num_targets results = some out ∧
      out[t]? = some (if sigPopcount (signature targets t) ≤ 2048 then 0 else 1) := by
  have htN : 64 * t + 64 ≤ targets.length := by omega
  have hx : (signature targets t).length = 64 := signature_length targets t htN
  have hlibI : (2 : Int) * 64 ≤ (exLib.length : Int) := by rw [exLib_length]; decide
  have h0 := distance_sigZero (signature targets t) hx
  have h1 := distance_sigOnes (signature targets t) hx
  refine ⟨h0, h1, ?_⟩
  have d0 := distance_signature exLib targets 0 t (by rw [exLib_length]; decide) htN
  have d1 := distance_signature exLib targets 1 t (by rw [exLib_length]) htN
  rw [signature_exLib_zero, h0, Option.some_inj] at d0
  rw [signature_exLib_one, h1, Option.some_inj] at d1
  obtain ⟨out, hout, _, hslot, _⟩ :=
    match_batch_spec exLib targets 2 num_targets results (by decide) hm hlibI htg hres
  obtain ⟨r, hr, _, hbest⟩ :=
    bestIndex_spec exLib targets 2 t (by decide) hlibI (by omega) htN
  obtain ⟨rn, hrn, hlt, hmin, hfirst⟩ := hbest (by decide)
  have e0 : closedDist exLib targets t 0 = sigPopcount (signature targets t) := d0.symm
  have e1 : closedDist exLib targets t 1 = 4096 - sigPopcount (signature targets t) :=
    d1.symm
  have hle := closedDist_le exLib targets t 0
  refine ⟨out, hout, ?_⟩
  rw [hslot t ht, hr, hrn]
  apply congrArg some
  have hrn2 : rn = 0 ∨ rn = 1 := by omega
  by_cases hcase : sigPopcount (signature targets t) ≤ 2048
  · rw [if_pos hcase]
    rcases hrn2 with h | h
    · rw [h]; rfl
    · exfalso
      have := hfirst 0 (by omega)
      rw [h] at this
      omega
  · rw [if_neg hcase]
    rcases hrn2 with h | h
    · exfalso
      have := hmin 1 (by decide)
      rw [h] at this
      omega
    · rw [h]; rfl

set_option maxRecDepth 1000000 in
/-- Witness of C12: the targets are the all-zero signature and the all-zero signature with
one bit flipped; the distances are 0 and 4096, and 1 and 4095, and both results are 0. -/
theorem two_entry_library_witness :
    (distance sigZero sigZero = some 0 ∧ distance sigOnes sigZero = some 4096 ∧
      distance sigZero sigFlip = some 1 ∧ distance sigOnes sigFlip = some 4095 ∧
      match_batch exLib exTargetsC 2 2 [7, 7] = some [0, 0]) ∧
    (distance sigZero (signature exTargetsC 1) = some (sigPopcount (signature exTargetsC 1)) ∧
      distance sigOnes (signature exTargetsC 1)
        = some (4096 - sigPopcount (signature exTargetsC 1)) ∧
      ∃ out, match_batch exLib exTargetsC 2 2 [7, 7] = some out ∧
        out[1]? = some (if sigPopcount (signature exTargetsC 1) ≤ 2048 then 0 else 1)) :=
  ⟨⟨by decide, by decide, by decide, by decide, by decide⟩,
    two_entry_library exTargetsC 2 [7, 7] 1 (by decide)
      (by rw [exTargetsC_length]; decide) (by decide) (by decide)⟩

/-! ## Determinism of the parallel loop -/

theorem runSchedule_spec (lib targets : List Nat) (n_pages : Int) (f : Nat → Int)
    (schedule : List (Nat × Nat)) :
    ∀ results : List Int,
      (∀ p ∈ schedule, bestIndex lib targets n_pages (p.2 : Int) = some (f p.2)
        ∧ p.2 < results.length) →
      ∃ out, runSchedule lib targets n_pages schedule results = some out ∧
        out.length = results.length ∧
        (∀ s, s ∈ schedule.map Prod.snd → out[s]? = some (f s)) ∧
        (∀ s, s ∉ schedule.map Prod.snd → out[s]? = results[s]?) := by
  induction schedule with
  | nil =>
    intro results _
    exact ⟨results, rfl, rfl, fun s hs => by simp at hs, fun s _ => rfl⟩
  | cons p rest ih =>
    intro results h
    obtain ⟨w, t⟩ := p
    have hp := h (w, t) (List.mem_cons_self _ _)
    simp only at hp
    obtain ⟨out, hout, hl, h1, h2⟩ := ih (results.set t (f t)) (by
      intro q hq
      have := h q (List.mem_cons_of_mem _ hq)
      rw [List.length_set]
      exact this)
    refine ⟨out, ?_, by rw [hl, List.length_set], ?_, ?_⟩
    · rw [runSchedule, targetIter, hp.1]
      simp only
      rw [writeResult_natCast results t (f t) hp.2]
      exact hout
    · intro s hs
      by_cases hin : s ∈ rest.map Prod.snd
      · exact h1 s hin
      · have hst : s = t := by
          simp only [List.map_cons, List.mem_cons] at hs
          rcases hs with hs | hs
          · exact hs
          · exact absurd hs hin
        subst hst
        rw [h2 s hin, List.getElem?_set_self hp.2]
    · intro s hs
      simp only [List.map_cons, List.mem_cons, not_or] at hs
      rw [h2 s hs.2, List.getElem?_set_ne (fun h => hs.1 h.symm)]

/-- Claim C14. Determinism across concurrency levels: for every assignment of the iterations
to workers and every order in which the iterations are run, each exactly once, the result
array is the one the sequential loop returns. -/
theorem schedule_independent (lib targets : List Nat) (n_pages num_targets : Int)
    (results : List Int) (schedule : List (Nat × Nat))
    (hn : n_pages ≤ 33554432) (hm : num_targets ≤ 33554432)
    (hlib : n_pages * 64 ≤ (lib.length : Int))
    (htg : num_targets * 64 ≤ (targets.length : Int))
    (hres : num_targets ≤ (results.length : Int))
    (hperm : (schedule.map Prod.snd).Perm (List.range num_targets.toNat)) :
    ∃ out, match_batch lib targets n_pages num_targets results = some out ∧
      runSchedule lib targets n_pages schedule results = some out := by
  obtain ⟨out, hout, hl, h1, h2⟩ :=
    match_batch_spec lib targets n_pages num_targets results hn hm hlib htg hres
  have hmem : ∀ s, s ∈ schedule.map Prod.snd ↔ s < num_targets.toNat := by
    intro s
    rw [hperm.mem_iff, List.mem_range]
  have hf : ∀ p ∈ schedule, bestIndex lib targets n_pages (p.2 : Int)
      = some ((fun s : Nat => (bestIndex lib targets n_pages (s : Int)).getD 0) p.2)
        ∧ p.2 < results.length := by
    intro p hp
    have hlt : p.2 < num_targets.toNat :=
      (hmem p.2).mp (List.mem_map_of_mem Prod.snd hp)
    obtain ⟨r, hr, _⟩ := bestIndex_spec lib targets n_pages p.2 hn hlib (by omega) (by omega)
    refine ⟨?_, by omega⟩
    simp only [hr, Option.getD_some]
  obtain ⟨out1, hout1, hl1, g1, g2⟩ := runSchedule_spec lib targets n_pages
    (fun s : Nat => (bestIndex lib targets n_pages (s : Int)).getD 0) schedule results hf
  refine ⟨out, hout, ?_⟩
  rw [hout1]
  apply congrArg some
  apply List.ext_getElem?
  intro s
  by_cases hs : s < num_targets.toNat
  · rw [g1 s ((hmem s).mpr hs), h1 s (by omega)]
    obtain ⟨r, hr, _⟩ := bestIndex_spec lib targets n_pages s hn hlib (by omega) (by omega)
    simp only [hr, Option.getD_some]
  · rw [g2 s (fun h => hs ((hmem s).mp h)), h2 s (by omega)]

/-- Witness of C14: three targets, run by two workers in the order 2, 0, 1. -/
theorem schedule_independent_witness :
    ∃ out, match_batch exLib exTargets 2 3 [7, 7, 7] = some out ∧
      runSchedule exLib exTargets 2 [(1, 2), (0, 0), (1, 1)] [7, 7, 7] = some out :=
  schedule_independent exLib exTargets 2 3 [7, 7, 7] [(1, 2), (0, 0), (1, 1)]
    (by decide) (by decide) (by rw [exLib_length]; decide)
    (by rw [exTargets_length]; decide) (by decide) (by decide)

end MatchBatch
